import Mathlib

/-!
Shallow embedding of the path-syntax converter of `openapi-router`
(`src/openapi-router.ts` and the type-level helpers of `src/types.ts`),
together with proofs of the specified properties.

Strings are modelled as `List Char`; `String`-level wrappers are provided
for concrete evaluation.
-/

namespace OpenapiRouter

/-- The character class `[A-Za-z0-9_]` of the runtime regex
`/:([A-Za-z0-9_]+)/g` in `toOpenApiPath`. -/
def isWordChar (c : Char) : Bool :=
  c.isAlphanum || c = '_'

/-- The `ParamDelimiter` union type of `src/types.ts`:
`"/" | "." | "-" | ")" | "(" | "?" | "&" | ":" | ""`.
Only single characters are ever checked against it (the inferred `C` of
`ExtractParamName` / `SkipParamName` is always one character), so the
empty-string member of the union is inert and omitted here. -/
def isParamDelimiter (c : Char) : Bool :=
  c = '/' || c = '.' || c = '-' || c = ')' || c = '(' || c = '?' || c = '&' || c = ':'

/-- JavaScript `String.prototype.split` with a single-character separator:
always returns a non-empty list of chunks. -/
def jsSplit (sep : Char) : List Char → List (List Char)
  | [] => [[]]
  | c :: rest =>
    if c = sep then [] :: jsSplit sep rest
    else
      match jsSplit sep rest with
      | [] => [[c]]
      | h :: t => (c :: h) :: t

/-- The JS expression `pattern.split("?")[0]`: array indexing may in general
be out of bounds, which the embedding makes explicit with `Option`. -/
def pathWithoutQuery (p : List Char) : Option (List Char) :=
  (jsSplit '?' p).head?

/-- The prefix of `p` strictly before the first `?`. -/
def stripQuery (p : List Char) : List Char :=
  p.takeWhile (fun c => c ≠ '?')

/-- Scanner semantics of `pathWithoutQuery.replace(/:([A-Za-z0-9_]+)/g, "{$1}")`:
left-to-right scan; at a `:` followed by a non-empty maximal run of
`[A-Za-z0-9_]` characters, the match `:run` is replaced by `{run}` and the
scan resumes after the run; every other character is copied unchanged.
The `Nat` argument is recursion fuel (the list length suffices). -/
def replaceParamsFuel : Nat → List Char → List Char
  | 0, p => p
  | _ + 1, [] => []
  | fuel + 1, c :: rest =>
    if c = ':' then
      let run := rest.takeWhile isWordChar
      if run.isEmpty then ':' :: replaceParamsFuel fuel rest
      else '{' :: (run ++ '}' :: replaceParamsFuel fuel (rest.dropWhile isWordChar))
    else c :: replaceParamsFuel fuel rest

/-- The regex-replacement pass of the runtime `toOpenApiPath`. -/
def replaceParams (p : List Char) : List Char :=
  replaceParamsFuel p.length p

/-- Runtime `toOpenApiPath` of `src/openapi-router.ts`: strip the query
(`split("?")[0]`, with `[]` as the — never used — fallback of the indexing)
and replace each `:param` by `{param}`. -/
def toOpenApiPath (p : List Char) : List Char :=
  replaceParams ((jsSplit '?' p).headD [])

/-- `String`-level wrapper of the runtime converter. -/
def toOpenApiPathStr (s : String) : String :=
  String.mk (toOpenApiPath s.data)

/-- Character-wise lowering: the model of JS `String.prototype.toLowerCase`
(identical to it on the ASCII method names involved). -/
def toLowerStr (s : String) : String :=
  String.mk (s.data.map Char.toLower)

/-- Runtime `toOpenApiMethod` of `src/openapi-router.ts`: `ANY` is first
mapped to `GET`, then the result is lowercased. -/
def toOpenApiMethod (m : String) : String :=
  toLowerStr (if m = "ANY" then "GET" else m)

/-- Type-level `ExtractParamName` of `src/types.ts`: accumulate characters
until the first `ParamDelimiter` (or the end of the string). -/
def ExtractParamName : List Char → List Char → List Char
  | [], acc => acc
  | c :: rest, acc =>
    if isParamDelimiter c then acc else ExtractParamName rest (acc ++ [c])

/-- Type-level `SkipParamName` of `src/types.ts`: drop characters up to (but
not including) the first `ParamDelimiter`. -/
def SkipParamName : List Char → List Char
  | [] => []
  | c :: rest =>
    if isParamDelimiter c then c :: rest else SkipParamName rest

/-- Type-level `ToOpenApiPath` of `src/openapi-router.ts`, with recursion
fuel. The conditional-type chain is: first try to split at the first `:`
(TypeScript template-literal inference finds the leftmost occurrence), and
only otherwise truncate at the first `?`. -/
def ToOpenApiPathFuel : Nat → List Char → List Char
  | 0, p => p
  | fuel + 1, p =>
    if ':' ∈ p then
      let head := p.takeWhile (fun c => c ≠ ':')
      let after := (p.dropWhile (fun c => c ≠ ':')).tail
      head ++ '{' :: (ExtractParamName after [] ++ '}' ::
        ToOpenApiPathFuel fuel (SkipParamName after))
    else if '?' ∈ p then p.takeWhile (fun c => c ≠ '?')
    else p

/-- Type-level `ToOpenApiPath` as a function on character lists. -/
def ToOpenApiPath (p : List Char) : List Char :=
  ToOpenApiPathFuel p.length p

/-- `String`-level wrapper of the type-level converter. -/
def ToOpenApiPathTypeStr (s : String) : String :=
  String.mk (ToOpenApiPath s.data)

/-- The first character of `s`, when present, is not a word character. -/
def headNotWord (s : List Char) : Prop :=
  ∀ c, s.head? = some c → isWordChar c = false

/-- Every `:` in the list is followed by a non-word character or by the end
of the list, so the scanner has nothing left to replace. -/
def colonsInert : List Char → Bool
  | [] => true
  | c :: rest =>
    (if c = ':' then rest.head?.all (fun d => !isWordChar d) else true) && colonsInert rest

/-- Every `:` in the list is followed by a non-empty run of `[A-Za-z0-9_]`
characters whose maximal such run ends at a `ParamDelimiter` character or at
the end of the string. -/
def colonsWellFormed : List Char → Bool
  | [] => true
  | c :: rest =>
    (if c = ':' then
      !(rest.takeWhile isWordChar).isEmpty &&
        (rest.dropWhile isWordChar).head?.all isParamDelimiter
    else true) && colonsWellFormed rest

/-- No `:` occurs at or after the first `?` of the list. -/
def noColonAfterQuery (p : List Char) : Bool :=
  (p.dropWhile (fun c => c ≠ '?')).all (fun c => c ≠ ':')

/-- Route patterns on which the runtime and the type-level converters are
proved to agree: every parameter token is well formed, and no `:` occurs
in the query part. -/
def wellFormedPattern (p : List Char) : Bool :=
  colonsWellFormed p && noColonAfterQuery p

/-! ### Model of createSpec -/

/-- A route object of the routing collaborator: its HTTP verb and the
`source` string of its pattern (`route.pattern.source`). -/
structure RouteObj where
  method : String
  pattern : String

/-- The `RequestTypes` shape of `src/types.ts`: the request shape of the
validation library with its `query` field replaced by `searchParams`.
Schemas are abstract (`α`); absent fields are `none`. -/
structure RequestTypes (α : Type) where
  params : Option α
  headers : Option α
  cookies : Option α
  body : Option α
  searchParams : Option α

/-- The request object built by `createSpec` for the validation library:
the spread `{ ...config.request, query: config.request.searchParams }`
keeps every original field and adds `query`. -/
structure TransformedRequest (α : Type) where
  params : Option α
  headers : Option α
  cookies : Option α
  body : Option α
  searchParams : Option α
  query : Option α

/-- A route config as accepted by `createSpec` (method and path omitted);
`responses` stands for the rest of the config, forwarded untouched. -/
structure RouteConfigIn (α β : Type) where
  request : Option (RequestTypes α)
  responses : β

/-- The normalized form forwarded to the registration function
(`createRoute` of the schema-validation collaborator). -/
structure RegisteredRoute (α β : Type) where
  method : String
  path : String
  request : Option (TransformedRequest α)
  responses : β

/-- `createSpec` of `src/openapi-router.ts`: lowercases the verb, converts
the pattern, and maps `searchParams` onto the validation library's `query`
field, spread-copying the rest of the request shape; an absent request
stays absent (`undefined`). -/
def createSpec {α β : Type} (route : RouteObj) (config : RouteConfigIn α β) :
    RegisteredRoute α β :=
  { method := toOpenApiMethod route.method
    path := toOpenApiPathStr route.pattern
    request := config.request.map (fun r =>
      { params := r.params
        headers := r.headers
        cookies := r.cookies
        body := r.body
        searchParams := r.searchParams
        query := r.searchParams })
    responses := config.responses }

/-! ### Fuel invariance and step equations -/

theorem replaceParamsFuel_congr :
    ∀ f₁ f₂ (p : List Char), p.length ≤ f₁ → p.length ≤ f₂ →
      replaceParamsFuel f₁ p = replaceParamsFuel f₂ p := by
  intro f₁
  induction f₁ with
  | zero =>
    intro f₂ p h₁ _
    have hp : p = [] := List.length_eq_zero.mp (Nat.le_zero.mp h₁)
    subst hp
    cases f₂ <;> rfl
  | succ f ih =>
    intro f₂ p h₁ h₂
    cases p with
    | nil => cases f₂ <;> rfl
    | cons c rest =>
      cases f₂ with
      | zero => simp at h₂
      | succ g =>
        have hr₁ : rest.length ≤ f := Nat.lt_succ_iff.mp h₁
        have hr₂ : rest.length ≤ g := Nat.lt_succ_iff.mp h₂
        have hd₁ : (rest.dropWhile isWordChar).length ≤ f :=
          le_trans ((List.dropWhile_suffix isWordChar).length_le) hr₁
        have hd₂ : (rest.dropWhile isWordChar).length ≤ g :=
          le_trans ((List.dropWhile_suffix isWordChar).length_le) hr₂
        simp only [replaceParamsFuel]
        rw [ih _ rest hr₁ hr₂, ih _ (rest.dropWhile isWordChar) hd₁ hd₂]

theorem replaceParams_nil : replaceParams [] = [] := rfl

/-- Step equation of the scanner. -/
theorem replaceParams_cons (c : Char) (rest : List Char) :
    replaceParams (c :: rest) =
      if c = ':' then
        if (rest.takeWhile isWordChar).isEmpty then ':' :: replaceParams rest
        else '{' :: (rest.takeWhile isWordChar ++ '}' ::
          replaceParams (rest.dropWhile isWordChar))
      else c :: replaceParams rest := by
  show replaceParamsFuel (rest.length + 1) (c :: rest) = _
  simp only [replaceParamsFuel, replaceParams]
  rw [replaceParamsFuel_congr rest.length (rest.dropWhile isWordChar).length
        (rest.dropWhile isWordChar) ((List.dropWhile_suffix isWordChar).length_le) le_rfl]

theorem SkipParamName_length_le (s : List Char) :
    (SkipParamName s).length ≤ s.length := by
  induction s with
  | nil => simp [SkipParamName]
  | cons c rest ih =>
    simp only [SkipParamName]
    split
    · simp
    · exact le_trans ih (by simp)

theorem ToOpenApiPathFuel_congr :
    ∀ f₁ f₂ (p : List Char), p.length ≤ f₁ → p.length ≤ f₂ →
      ToOpenApiPathFuel f₁ p = ToOpenApiPathFuel f₂ p := by
  intro f₁
  induction f₁ with
  | zero =>
    intro f₂ p h₁ _
    have hp : p = [] := List.length_eq_zero.mp (Nat.le_zero.mp h₁)
    subst hp
    cases f₂ <;> simp [ToOpenApiPathFuel]
  | succ f ih =>
    intro f₂ p h₁ h₂
    cases f₂ with
    | zero =>
      have hp : p = [] := List.length_eq_zero.mp (Nat.le_zero.mp h₂)
      subst hp
      simp [ToOpenApiPathFuel]
    | succ g =>
      simp only [ToOpenApiPathFuel]
      by_cases hc : ':' ∈ p
      · simp only [hc, if_true]
        have hne : p.dropWhile (fun c => c ≠ ':') ≠ [] := by
          intro h
          have := List.dropWhile_eq_nil_iff.mp h ':' hc
          simp at this
        have hlt : ((p.dropWhile (fun c => c ≠ ':')).tail).length < p.length := by
          have h1 : ((p.dropWhile (fun c => c ≠ ':')).tail).length <
              (p.dropWhile (fun c => c ≠ ':')).length := by
            rw [List.length_tail]
            exact Nat.pred_lt (by simpa [List.length_eq_zero] using hne)
          exact lt_of_lt_of_le h1 (List.dropWhile_suffix _).length_le
        have hsk : (SkipParamName ((p.dropWhile (fun c => c ≠ ':')).tail)).length ≤
            ((p.dropWhile (fun c => c ≠ ':')).tail).length :=
          SkipParamName_length_le _
        have hf : (SkipParamName ((p.dropWhile (fun c => c ≠ ':')).tail)).length ≤ f :=
          le_trans hsk (Nat.lt_succ_iff.mp (lt_of_lt_of_le hlt h₁))
        have hg : (SkipParamName ((p.dropWhile (fun c => c ≠ ':')).tail)).length ≤ g :=
          le_trans hsk (Nat.lt_succ_iff.mp (lt_of_lt_of_le hlt h₂))
        rw [ih _ _ hf hg]
      · simp [hc]

/-- Step equation of the type-level converter. -/
theorem ToOpenApiPath_eq (p : List Char) :
    ToOpenApiPath p =
      if ':' ∈ p then
        p.takeWhile (fun c => c ≠ ':') ++ '{' ::
          (ExtractParamName ((p.dropWhile (fun c => c ≠ ':')).tail) [] ++ '}' ::
            ToOpenApiPath (SkipParamName ((p.dropWhile (fun c => c ≠ ':')).tail)))
      else if '?' ∈ p then p.takeWhile (fun c => c ≠ '?')
      else p := by
  cases hp : p with
  | nil => simp [ToOpenApiPath, ToOpenApiPathFuel]
  | cons c rest =>
    rw [← hp]
    have hlen : 1 ≤ p.length := by simp [hp]
    show ToOpenApiPathFuel p.length p = _
    obtain ⟨n, hn⟩ : ∃ n, p.length = n + 1 := ⟨rest.length, by simp [hp]⟩
    rw [hn]
    simp only [ToOpenApiPathFuel]
    by_cases hc : ':' ∈ p
    · simp only [hc, if_true]
      have hne : p.dropWhile (fun c => c ≠ ':') ≠ [] := by
        intro h
        have := List.dropWhile_eq_nil_iff.mp h ':' hc
        simp at this
      have hlt : ((p.dropWhile (fun c => c ≠ ':')).tail).length < p.length := by
        have h1 : ((p.dropWhile (fun c => c ≠ ':')).tail).length <
            (p.dropWhile (fun c => c ≠ ':')).length := by
          rw [List.length_tail]
          exact Nat.pred_lt (by simpa [List.length_eq_zero] using hne)
        exact lt_of_lt_of_le h1 (List.dropWhile_suffix _).length_le
      have hsk : (SkipParamName ((p.dropWhile (fun c => c ≠ ':')).tail)).length ≤ n :=
        le_trans (SkipParamName_length_le _) (by omega)
      rw [ToOpenApiPathFuel_congr n _ _ hsk le_rfl]
      rfl
    · simp [hc]

/-! ### Generic list helpers -/

theorem delim_not_word {c : Char} (h : isParamDelimiter c = true) :
    isWordChar c = false := by
  simp only [isParamDelimiter, Bool.or_eq_true, decide_eq_true_eq] at h
  rcases h with ((((((h | h) | h) | h) | h) | h) | h) | h <;> subst h <;> decide

theorem takeWhile_append_all {f : Char → Bool} {u : List Char} (v : List Char)
    (hu : ∀ c ∈ u, f c = true) :
    (u ++ v).takeWhile f = u ++ v.takeWhile f := by
  induction u with
  | nil => simp
  | cons c rest ih =>
    have hc : f c = true := hu c (by simp)
    simp only [List.cons_append, List.takeWhile_cons, hc, if_true]
    rw [ih (fun d hd => hu d (by simp [hd]))]

theorem dropWhile_append_all {f : Char → Bool} {u : List Char} (v : List Char)
    (hu : ∀ c ∈ u, f c = true) :
    (u ++ v).dropWhile f = v.dropWhile f := by
  induction u with
  | nil => simp
  | cons c rest ih =>
    have hc : f c = true := hu c (by simp)
    simp only [List.cons_append, List.dropWhile_cons, hc, if_true]
    exact ih (fun d hd => hu d (by simp [hd]))

theorem headNotWord_nil : headNotWord [] := by
  intro c hc
  simp at hc

theorem takeWhile_word_head_eq_nil {s : List Char} (hs : headNotWord s) :
    s.takeWhile isWordChar = [] := by
  cases s with
  | nil => rfl
  | cons c rest =>
    have := hs c rfl
    simp [List.takeWhile_cons, this]

theorem dropWhile_word_head_eq_self {s : List Char} (hs : headNotWord s) :
    s.dropWhile isWordChar = s := by
  cases s with
  | nil => rfl
  | cons c rest =>
    have := hs c rfl
    simp [List.dropWhile_cons, this]

theorem word_run_takeWhile {name v : List Char}
    (hw : ∀ c ∈ name, isWordChar c = true) (hv : headNotWord v) :
    (name ++ v).takeWhile isWordChar = name := by
  rw [takeWhile_append_all v hw, takeWhile_word_head_eq_nil hv, List.append_nil]

theorem word_run_dropWhile {name v : List Char}
    (hw : ∀ c ∈ name, isWordChar c = true) (hv : headNotWord v) :
    (name ++ v).dropWhile isWordChar = v := by
  rw [dropWhile_append_all v hw, dropWhile_word_head_eq_self hv]

/-! ### jsSplit and query stripping -/

theorem jsSplit_head? (sep : Char) (p : List Char) :
    (jsSplit sep p).head? = some (p.takeWhile (fun c => c ≠ sep)) := by
  induction p with
  | nil => rfl
  | cons c rest ih =>
    simp only [jsSplit]
    by_cases hc : c = sep
    · simp [hc]
    · simp only [hc, if_false]
      cases hsp : jsSplit sep rest with
      | nil => rw [hsp] at ih; simp at ih
      | cons h t =>
        rw [hsp] at ih
        simp only [List.head?_cons, Option.some.injEq] at ih
        simp [List.takeWhile_cons, hc, ih]

theorem jsSplit_headD (p : List Char) :
    (jsSplit '?' p).headD [] = stripQuery p := by
  have := jsSplit_head? '?' p
  cases hsp : jsSplit '?' p with
  | nil => rw [hsp] at this; simp at this
  | cons h t =>
    rw [hsp] at this
    simp only [List.head?_cons, Option.some.injEq] at this
    simpa [stripQuery] using this

/-- The runtime converter, rewritten through the always-defined head. -/
theorem toOpenApiPath_eq_strip (p : List Char) :
    toOpenApiPath p = replaceParams (stripQuery p) := by
  rw [toOpenApiPath, jsSplit_headD]

theorem stripQuery_no_query (p : List Char) : ∀ c ∈ stripQuery p, c ≠ '?' := by
  intro c hc
  have := List.mem_takeWhile_imp hc
  simpa using this

theorem stripQuery_eq_self {p : List Char} (h : ∀ c ∈ p, c ≠ '?') :
    stripQuery p = p :=
  List.takeWhile_eq_self_iff.mpr (fun c hc => by simpa using h c hc)

theorem stripQuery_idem (p : List Char) :
    stripQuery (stripQuery p) = stripQuery p :=
  stripQuery_eq_self (stripQuery_no_query p)

/-! ### Structure of the replacement scanner -/

theorem takeWhile_append_stop {s : List Char} (hs : headNotWord s) :
    ∀ u : List Char, (u ++ s).takeWhile isWordChar = u.takeWhile isWordChar := by
  intro u
  induction u with
  | nil => simpa using takeWhile_word_head_eq_nil hs
  | cons a u' ih =>
    by_cases ha : isWordChar a
    · simp [List.takeWhile_cons, ha, ih]
    · simp [List.takeWhile_cons, ha]

theorem dropWhile_append_stop {s : List Char} (hs : headNotWord s) :
    ∀ u : List Char, (u ++ s).dropWhile isWordChar = u.dropWhile isWordChar ++ s := by
  intro u
  induction u with
  | nil => simpa using dropWhile_word_head_eq_self hs
  | cons a u' ih =>
    by_cases ha : isWordChar a
    · simp [List.dropWhile_cons, ha, ih]
    · simp [List.dropWhile_cons, ha]

theorem replaceParams_append_nocolon {u : List Char} (v : List Char)
    (hu : ∀ c ∈ u, c ≠ ':') :
    replaceParams (u ++ v) = u ++ replaceParams v := by
  induction u with
  | nil => simp
  | cons c u' ih =>
    have hc : c ≠ ':' := hu c (by simp)
    rw [List.cons_append, replaceParams_cons]
    simp only [hc, if_false]
    rw [ih (fun d hd => hu d (by simp [hd]))]
    rfl

theorem replaceParams_id_nocolon {u : List Char} (hu : ∀ c ∈ u, c ≠ ':') :
    replaceParams u = u := by
  have := replaceParams_append_nocolon (u := u) [] hu
  simpa [replaceParams_nil] using this

theorem replaceParams_split {s : List Char} (hs : headNotWord s) :
    ∀ n (u : List Char), u.length ≤ n →
      replaceParams (u ++ s) = replaceParams u ++ replaceParams s := by
  intro n
  induction n with
  | zero =>
    intro u hu
    have : u = [] := List.length_eq_zero.mp (Nat.le_zero.mp hu)
    subst this
    simp [replaceParams_nil]
  | succ n ih =>
    intro u hu
    cases u with
    | nil => simp [replaceParams_nil]
    | cons c u' =>
      have hu' : u'.length ≤ n := Nat.lt_succ_iff.mp hu
      rw [List.cons_append, replaceParams_cons, replaceParams_cons]
      by_cases hc : c = ':'
      · simp only [hc, if_true]
        rw [takeWhile_append_stop hs, dropWhile_append_stop hs]
        by_cases he : (u'.takeWhile isWordChar).isEmpty
        · simp only [he, if_true]
          rw [ih u' hu']
          rfl
        · simp only [he, if_false]
          have hd : (u'.dropWhile isWordChar).length ≤ n :=
            le_trans (List.dropWhile_suffix isWordChar).length_le hu'
          rw [ih _ hd]
          simp
      · simp only [hc, if_false]
        rw [ih u' hu']
        rfl

theorem replaceParams_colon_match {name v : List Char} (hn : name ≠ [])
    (hw : ∀ c ∈ name, isWordChar c = true) (hv : headNotWord v) :
    replaceParams (':' :: (name ++ v)) = '{' :: (name ++ '}' :: replaceParams v) := by
  rw [replaceParams_cons]
  simp only [if_true]
  rw [word_run_takeWhile hw hv, word_run_dropWhile hw hv]
  simp [hn]

theorem replaceParams_colon_nomatch {v : List Char} (hv : headNotWord v) :
    replaceParams (':' :: v) = ':' :: replaceParams v := by
  rw [replaceParams_cons]
  simp [takeWhile_word_head_eq_nil hv]

/-! ### Idempotence machinery -/

theorem option_all_true {o : Option Char} {f : Char → Bool}
    (h : ∀ c, o = some c → f c = true) : o.all f = true := by
  cases o with
  | none => rfl
  | some c => simpa [Option.all] using h c rfl

theorem true_of_option_all {o : Option Char} {f : Char → Bool}
    (h : o.all f = true) : ∀ c, o = some c → f c = true := by
  intro c hc
  subst hc
  simpa [Option.all] using h

theorem replaceParams_id_of_inert : ∀ {p : List Char},
    colonsInert p = true → replaceParams p = p := by
  intro p
  induction p with
  | nil => intro _; rfl
  | cons c rest ih =>
    intro h
    simp only [colonsInert, Bool.and_eq_true] at h
    obtain ⟨h1, h2⟩ := h
    by_cases hc : c = ':'
    · subst hc
      simp only [if_true] at h1
      have hv : headNotWord rest := by
        intro d hd
        have := true_of_option_all h1 d hd
        simpa using this
      rw [replaceParams_colon_nomatch hv, ih h2]
    · rw [replaceParams_cons]
      simp only [hc, if_false]
      rw [ih h2]

theorem colonsInert_append_nocolon {u : List Char} (w : List Char)
    (hu : ∀ c ∈ u, c ≠ ':') :
    colonsInert (u ++ w) = colonsInert w := by
  induction u with
  | nil => simp
  | cons c u' ih =>
    have hc : c ≠ ':' := hu c (by simp)
    simp only [List.cons_append, colonsInert, hc, if_false, Bool.true_and]
    exact ih (fun d hd => hu d (by simp [hd]))

theorem replaceParams_head_not_word {d : Char} (t : List Char)
    (hd : isWordChar d = false) :
    headNotWord (replaceParams (d :: t)) := by
  intro c hc
  rw [replaceParams_cons] at hc
  split at hc
  · split at hc
    · simp only [List.head?_cons, Option.some.injEq] at hc
      subst hc; decide
    · simp only [List.head?_cons, Option.some.injEq] at hc
      subst hc; decide
  · simp only [List.head?_cons, Option.some.injEq] at hc
    subst hc; exact hd

theorem colonsInert_replaceParams : ∀ n (p : List Char), p.length ≤ n →
    colonsInert (replaceParams p) = true := by
  intro n
  induction n with
  | zero =>
    intro p hp
    have : p = [] := List.length_eq_zero.mp (Nat.le_zero.mp hp)
    subst this
    rfl
  | succ n ih =>
    intro p hp
    cases p with
    | nil => rfl
    | cons c rest =>
      have hr : rest.length ≤ n := Nat.lt_succ_iff.mp hp
      rw [replaceParams_cons]
      by_cases hc : c = ':'
      · simp only [hc, if_true]
        by_cases he : (rest.takeWhile isWordChar).isEmpty
        · simp only [he, if_true]
          simp only [colonsInert, if_true, Bool.and_eq_true]
          refine ⟨?_, ih rest hr⟩
          apply option_all_true
          intro d hd
          cases rest with
          | nil => simp [replaceParams_nil] at hd
          | cons a t =>
            have ha : isWordChar a = false := by
              have := List.isEmpty_iff.mp he
              simp only [List.takeWhile_cons] at this
              by_cases h : isWordChar a
              · simp [h] at this
              · simpa using h
            have := replaceParams_head_not_word t ha d hd
            simp [this]
        · simp only [he, if_false]
          have hbrace : ('{' : Char) ≠ ':' := by decide
          simp only [colonsInert, hbrace, if_false, Bool.true_and]
          have hnc : ∀ c ∈ rest.takeWhile isWordChar, c ≠ ':' := by
            intro d hd hdc
            have := List.mem_takeWhile_imp hd
            subst hdc
            simp [isWordChar] at this
          rw [colonsInert_append_nocolon _ hnc]
          have hrb : ('}' : Char) ≠ ':' := by decide
          simp only [colonsInert, hrb, if_false, Bool.true_and]
          exact ih _ (le_trans (List.dropWhile_suffix isWordChar).length_le hr)
      · simp only [hc, if_false, colonsInert, Bool.and_eq_true]
        exact ⟨by simp [hc], ih rest hr⟩

theorem mem_replaceParams : ∀ n (p : List Char), p.length ≤ n →
    ∀ c ∈ replaceParams p, c ∈ p ∨ c = '{' ∨ c = '}' := by
  intro n
  induction n with
  | zero =>
    intro p hp
    have : p = [] := List.length_eq_zero.mp (Nat.le_zero.mp hp)
    subst this
    simp [replaceParams_nil]
  | succ n ih =>
    intro p hp c hc
    cases p with
    | nil => simp [replaceParams_nil] at hc
    | cons a rest =>
      have hr : rest.length ≤ n := Nat.lt_succ_iff.mp hp
      rw [replaceParams_cons] at hc
      by_cases ha : a = ':'
      · simp only [ha, if_true] at hc
        by_cases he : (rest.takeWhile isWordChar).isEmpty
        · simp only [he, if_true, List.mem_cons] at hc
          rcases hc with hc | hc
          · left; simp [ha, hc]
          · rcases ih rest hr c hc with h | h
            · left; simp [h]
            · right; exact h
        · simp only [he, if_false] at hc
          rcases List.mem_cons.mp hc with hc | hc
          · right; left; exact hc
          · rcases List.mem_append.mp hc with hc | hc
            · left
              exact List.mem_cons_of_mem _ ((List.takeWhile_sublist isWordChar).mem hc)
            · rcases List.mem_cons.mp hc with hc | hc
              · right; right; exact hc
              · have hd : (rest.dropWhile isWordChar).length ≤ n :=
                  le_trans (List.dropWhile_suffix isWordChar).length_le hr
                rcases ih _ hd c hc with h | h
                · left
                  exact List.mem_cons_of_mem _ ((List.dropWhile_suffix isWordChar).mem h)
                · right; exact h
      · simp only [ha, if_false, List.mem_cons] at hc
        rcases hc with hc | hc
        · left; simp [hc]
        · rcases ih rest hr c hc with h | h
          · left; simp [h]
          · right; exact h

/-! ### Type-level helpers, rewritten via takeWhile / dropWhile -/

theorem ExtractParamName_acc : ∀ (s acc : List Char),
    ExtractParamName s acc = acc ++ ExtractParamName s [] := by
  intro s
  induction s with
  | nil => intro acc; simp [ExtractParamName]
  | cons c rest ih =>
    intro acc
    simp only [ExtractParamName]
    rw [ih (acc ++ [c]), ih ([] ++ [c])]
    by_cases hc : isParamDelimiter c <;> simp [hc]

theorem ExtractParamName_eq_takeWhile (s : List Char) :
    ExtractParamName s [] = s.takeWhile (fun c => !isParamDelimiter c) := by
  induction s with
  | nil => rfl
  | cons c rest ih =>
    simp only [ExtractParamName, List.takeWhile_cons]
    by_cases hc : isParamDelimiter c
    · simp [hc]
    · simp only [hc, if_false, Bool.not_false, if_true]
      rw [ExtractParamName_acc, ih]
      simp

theorem SkipParamName_eq_dropWhile (s : List Char) :
    SkipParamName s = s.dropWhile (fun c => !isParamDelimiter c) := by
  induction s with
  | nil => rfl
  | cons c rest ih =>
    simp only [SkipParamName, List.dropWhile_cons]
    by_cases hc : isParamDelimiter c
    · simp [hc]
    · simp only [hc, if_false, Bool.not_false, if_true]
      exact ih

/-! ### Well-formed patterns: the class on which both converters agree -/

theorem colonsWellFormed_append_left {u v : List Char}
    (h : colonsWellFormed (u ++ v) = true) : colonsWellFormed v = true := by
  induction u with
  | nil => simpa using h
  | cons c u' ih =>
    simp only [List.cons_append, colonsWellFormed, Bool.and_eq_true] at h
    exact ih h.2

theorem colonsWellFormed_suffix {u v : List Char} (hs : v <:+ u)
    (h : colonsWellFormed u = true) : colonsWellFormed v = true := by
  obtain ⟨w, rfl⟩ := hs
  exact colonsWellFormed_append_left h

theorem dropWhile_first_colon : ∀ {p : List Char}, ':' ∈ p →
    ∃ t, p.dropWhile (fun c => c ≠ ':') = ':' :: t := by
  intro p
  induction p with
  | nil => intro h; simp at h
  | cons c rest ih =>
    intro h
    by_cases hc : c = ':'
    · subst hc
      exact ⟨rest, by simp [List.dropWhile_cons]⟩
    · have hr : ':' ∈ rest := by
        rcases List.mem_cons.mp h with h' | h'
        · exact absurd h'.symm hc
        · exact h'
      obtain ⟨t, ht⟩ := ih hr
      have hfc : (fun x => decide (x ≠ ':')) c = true := by simp [hc]
      exact ⟨t, by rw [List.dropWhile_cons, if_pos hfc]; exact ht⟩

theorem word_not_delim {c : Char} (h : isWordChar c = true) :
    isParamDelimiter c = false := by
  cases hpd : isParamDelimiter c
  · rfl
  · simp [delim_not_word hpd] at h

/-! ### Agreement of the runtime and the type-level converters -/

theorem typeLevel_agrees_aux : ∀ n (p : List Char), p.length ≤ n →
    colonsWellFormed p = true → noColonAfterQuery p = true →
    ToOpenApiPath p = toOpenApiPath p := by
  intro n
  induction n with
  | zero =>
    intro p hp _ _
    have : p = [] := List.length_eq_zero.mp (Nat.le_zero.mp hp)
    subst this
    rfl
  | succ n ih =>
    intro p hp h1 h2
    by_cases hc : ':' ∈ p
    · -- p splits at its first colon
      obtain ⟨t, ht⟩ := dropWhile_first_colon hc
      have hdecomp : p = p.takeWhile (fun c => c ≠ ':') ++ ':' :: t := by
        conv_lhs => rw [← List.takeWhile_append_dropWhile (fun c => decide (c ≠ ':')) p]
        rw [ht]
      have hhead_nocolon : ∀ c ∈ p.takeWhile (fun c => c ≠ ':'), c ≠ ':' := by
        intro c hcm
        have := List.mem_takeWhile_imp hcm
        simpa using this
      have hw1 : colonsWellFormed (':' :: t) = true := by
        rw [hdecomp] at h1
        exact colonsWellFormed_append_left h1
      have hw2 : ((!(t.takeWhile isWordChar).isEmpty &&
          Option.all isParamDelimiter (t.dropWhile isWordChar).head?) &&
          colonsWellFormed t) = true := by
        have hunfold : colonsWellFormed (':' :: t) =
            ((!(t.takeWhile isWordChar).isEmpty &&
              Option.all isParamDelimiter (t.dropWhile isWordChar).head?) &&
              colonsWellFormed t) := by
          simp [colonsWellFormed]
        rw [← hunfold]
        exact hw1
      rw [Bool.and_eq_true, Bool.and_eq_true] at hw2
      obtain ⟨⟨hrun_ne, hdel⟩, hwf_t⟩ := hw2
      have ht_decomp : t = t.takeWhile isWordChar ++ t.dropWhile isWordChar :=
        (List.takeWhile_append_dropWhile _ _).symm
      have hrun_word : ∀ c ∈ t.takeWhile isWordChar, isWordChar c = true :=
        fun c hcm => List.mem_takeWhile_imp hcm
      have hrest_delim : ∀ c, (t.dropWhile isWordChar).head? = some c →
          isParamDelimiter c = true := true_of_option_all hdel
      have hrest_nw : headNotWord (t.dropWhile isWordChar) :=
        fun c h => delim_not_word (hrest_delim c h)
      have hrun_nonempty : t.takeWhile isWordChar ≠ [] := by
        intro h
        rw [h] at hrun_ne
        simp at hrun_ne
      -- type-level token extraction computes the word run and its residue
      have hrun_nodelim : ∀ c ∈ t.takeWhile isWordChar, (!isParamDelimiter c) = true :=
        fun c hcm => by simp [word_not_delim (hrun_word c hcm)]
      have htw_nil : (t.dropWhile isWordChar).takeWhile (fun c => !isParamDelimiter c) = [] := by
        cases hr : t.dropWhile isWordChar with
        | nil => rfl
        | cons d t' =>
          have hd := hrest_delim d (by rw [hr]; rfl)
          simp [List.takeWhile_cons, hd]
      have hdw_self : (t.dropWhile isWordChar).dropWhile (fun c => !isParamDelimiter c) =
          t.dropWhile isWordChar := by
        cases hr : t.dropWhile isWordChar with
        | nil => rfl
        | cons d t' =>
          have hd := hrest_delim d (by rw [hr]; rfl)
          simp [List.dropWhile_cons, hd]
      have hExtract : ExtractParamName t [] = t.takeWhile isWordChar := by
        rw [ExtractParamName_eq_takeWhile]
        conv_lhs => rw [ht_decomp]
        rw [takeWhile_append_all _ hrun_nodelim, htw_nil, List.append_nil]
      have hSkip : SkipParamName t = t.dropWhile isWordChar := by
        rw [SkipParamName_eq_dropWhile]
        conv_lhs => rw [ht_decomp]
        rw [dropWhile_append_all _ hrun_nodelim, hdw_self]
      -- the part of p before the colon contains no '?'
      have hq_head : ∀ c ∈ p.takeWhile (fun c => c ≠ ':'), c ≠ '?' := by
        by_contra hq
        push_neg at hq
        obtain ⟨c, hcm, hceq⟩ := hq
        subst hceq
        have hdw : (p.takeWhile (fun c => c ≠ ':')).dropWhile (fun c => decide (c ≠ '?')) ≠ [] := by
          intro h0
          have := List.dropWhile_eq_nil_iff.mp h0 _ hcm
          simp at this
        have hsplit : p.dropWhile (fun c => decide (c ≠ '?')) =
            (p.takeWhile (fun c => c ≠ ':')).dropWhile (fun c => decide (c ≠ '?')) ++ (':' :: t) := by
          conv_lhs => rw [hdecomp]
          rw [List.dropWhile_append]
          simp only [List.isEmpty_iff]
          rw [if_neg hdw]
        simp only [noColonAfterQuery] at h2
        rw [hsplit] at h2
        simp at h2
      -- the whole prefix up to and including the word run contains no '?'
      have hprefix_noq : ∀ c ∈ (p.takeWhile (fun c => c ≠ ':') ++ ':' :: t.takeWhile isWordChar),
          (fun c => decide (c ≠ '?')) c = true := by
        intro c hcm
        simp only [decide_eq_true_eq]
        rcases List.mem_append.mp hcm with h | h
        · exact hq_head c h
        · rcases List.mem_cons.mp h with h | h
          · subst h; decide
          · intro hcq
            subst hcq
            have := hrun_word _ h
            simp [isWordChar] at this
      have hdecomp2 : p = (p.takeWhile (fun c => c ≠ ':') ++ ':' :: t.takeWhile isWordChar)
          ++ t.dropWhile isWordChar := by
        conv_lhs => rw [hdecomp]
        conv_lhs => rw [ht_decomp]
        simp
      -- query stripping only touches the residue after the word run
      have hp_strip : stripQuery p =
          (p.takeWhile (fun c => c ≠ ':') ++ ':' :: t.takeWhile isWordChar)
            ++ stripQuery (t.dropWhile isWordChar) := by
        show p.takeWhile (fun c => decide (c ≠ '?')) = _
        conv_lhs => rw [hdecomp2]
        rw [takeWhile_append_all _ hprefix_noq]
        rfl
      have hq_rest : noColonAfterQuery (t.dropWhile isWordChar) = true := by
        have hdq : p.dropWhile (fun c => decide (c ≠ '?')) =
            (t.dropWhile isWordChar).dropWhile (fun c => decide (c ≠ '?')) := by
          conv_lhs => rw [hdecomp2]
          exact dropWhile_append_all _ hprefix_noq
        simp only [noColonAfterQuery] at h2 ⊢
        rw [hdq] at h2
        exact h2
      have hwf_rest : colonsWellFormed (t.dropWhile isWordChar) = true :=
        colonsWellFormed_suffix (List.dropWhile_suffix isWordChar) hwf_t
      have hlen : (t.dropWhile isWordChar).length ≤ n := by
        have ha : (t.dropWhile isWordChar).length ≤ t.length :=
          (List.dropWhile_suffix isWordChar).length_le
        have hb : p.length = (p.takeWhile (fun c => c ≠ ':')).length + (t.length + 1) := by
          conv_lhs => rw [hdecomp]
          simp [List.length_append]
        omega
      have hsq_nw : headNotWord (stripQuery (t.dropWhile isWordChar)) := by
        intro c hcm
        cases hr : t.dropWhile isWordChar with
        | nil =>
          rw [hr] at hcm
          simp [stripQuery] at hcm
        | cons d t' =>
          have hd := hrest_delim d (by rw [hr]; rfl)
          rw [hr] at hcm
          by_cases hdq : d = '?'
          · subst hdq
            simp [stripQuery, List.takeWhile_cons] at hcm
          · simp only [stripQuery, List.takeWhile_cons] at hcm
            rw [if_pos (by simp [hdq])] at hcm
            simp only [List.head?_cons, Option.some.injEq] at hcm
            subst hcm
            exact delim_not_word hd
      -- runtime value
      have hrt : toOpenApiPath p = p.takeWhile (fun c => c ≠ ':') ++ '{' ::
          (t.takeWhile isWordChar ++ '}' :: toOpenApiPath (t.dropWhile isWordChar)) := by
        rw [toOpenApiPath_eq_strip, hp_strip, List.append_assoc]
        rw [replaceParams_append_nocolon _ hhead_nocolon]
        rw [show (':' :: t.takeWhile isWordChar ++ stripQuery (t.dropWhile isWordChar)) =
          (':' :: (t.takeWhile isWordChar ++ stripQuery (t.dropWhile isWordChar))) by simp]
        rw [replaceParams_colon_match hrun_nonempty hrun_word hsq_nw]
        rw [← toOpenApiPath_eq_strip]
      -- type-level value
      rw [ToOpenApiPath_eq]
      simp only [hc, if_true]
      rw [ht]
      simp only [List.tail_cons]
      rw [hExtract, hSkip, ih _ hlen hwf_rest hq_rest, hrt]
    · -- no colon: both converters only strip the query
      rw [ToOpenApiPath_eq, toOpenApiPath_eq_strip]
      have hnc : ∀ c ∈ p, c ≠ ':' := by
        intro c hcp heq
        exact hc (heq ▸ hcp)
      have hid : replaceParams (stripQuery p) = stripQuery p :=
        replaceParams_id_nocolon
          (fun c hcs => hnc c ((List.takeWhile_sublist _).mem hcs))
      simp only [hc, if_false]
      by_cases hq : '?' ∈ p
      · rw [if_pos hq, hid]
        rfl
      · rw [if_neg hq, hid]
        exact (stripQuery_eq_self (fun c hcp hceq => hq (hceq ▸ hcp))).symm

/-! ## Claims -/

/-- C1, counterexample: on the input `/a/:/b` the type-level converter
produces `/a/{}/b` (the colon branch fires with an empty parameter name)
while the runtime function leaves the string unchanged, so the two
embeddings are not equal as functions over all input strings. -/
theorem claim1_divergence_counterexample :
    ToOpenApiPathTypeStr "/a/:/b" = "/a/{}/b" ∧
    toOpenApiPathStr "/a/:/b" = "/a/:/b" ∧
    ToOpenApiPathTypeStr "/a/:/b" ≠ toOpenApiPathStr "/a/:/b" :=
  ⟨by decide, by decide, by decide⟩

/-- C1, amended: on every well-formed pattern — each `:` is followed by a
non-empty run of `[A-Za-z0-9_]` characters whose maximal run ends at a
`ParamDelimiter` character or at end-of-string, and no `:` occurs at or
after the first `?` — the type-level converter (built from
`ExtractParamName` and `SkipParamName` over the `ParamDelimiter` set)
produces exactly the string the runtime `toOpenApiPath` produces. -/
theorem claim1_agreement_on_wellformed (p : List Char)
    (h : wellFormedPattern p = true) : ToOpenApiPath p = toOpenApiPath p := by
  rw [wellFormedPattern, Bool.and_eq_true] at h
  exact typeLevel_agrees_aux p.length p le_rfl h.1 h.2

theorem claim1_agreement_witness :
    wellFormedPattern ("/users/:id?includeDeleted".data) = true ∧
    ToOpenApiPath ("/users/:id?includeDeleted".data) =
      toOpenApiPath ("/users/:id?includeDeleted".data) :=
  ⟨by decide, claim1_agreement_on_wellformed _ (by decide)⟩

/-- C2: after query stripping, a maximal token `:name` (a `:` followed by a
non-empty run of `[A-Za-z0-9_]` characters not continued by a further word
character) is replaced by `{name}`; the text before and after the token is
processed independently, in place and in order. -/
theorem claim2_token_replacement (u name v : List Char) (h1 : name ≠ [])
    (h2 : ∀ c ∈ name, isWordChar c = true)
    (h3 : v.head?.all (fun c => !isWordChar c) = true)
    (h4 : ∀ c ∈ u ++ ':' :: (name ++ v), c ≠ '?') :
    toOpenApiPath (u ++ ':' :: (name ++ v)) =
      replaceParams u ++ '{' :: (name ++ '}' :: replaceParams v) := by
  have hv : headNotWord v := by
    intro c hc
    simpa using true_of_option_all h3 c hc
  have hcolon_nw : headNotWord (':' :: (name ++ v)) := by
    intro c hc
    simp only [List.head?_cons, Option.some.injEq] at hc
    subst hc
    decide
  rw [toOpenApiPath_eq_strip, stripQuery_eq_self h4,
    replaceParams_split hcolon_nw u.length u le_rfl,
    replaceParams_colon_match h1 h2 hv]

theorem claim2_witness :
    ("id".data ≠ ([] : List Char)) ∧
    toOpenApiPath ("/api".data ++ ':' :: ("id".data ++ "/x".data)) =
      replaceParams ("/api".data) ++ '{' ::
        ("id".data ++ '}' :: replaceParams ("/x".data)) :=
  ⟨by decide,
    claim2_token_replacement _ _ _ (by decide) (by decide) (by decide) (by decide)⟩

/-- C3: for a pattern containing `?`, conversion equals conversion of the
prefix strictly before the first `?`. -/
theorem claim3_query_stripping (p : List Char) (_h : '?' ∈ p) :
    toOpenApiPath p = toOpenApiPath (p.takeWhile (fun c => c ≠ '?')) := by
  rw [toOpenApiPath_eq_strip, toOpenApiPath_eq_strip,
    show (p.takeWhile (fun c => c ≠ '?')) = stripQuery p from rfl, stripQuery_idem]

theorem claim3_witness :
    ('?' ∈ "/users/:id?includeDeleted".data) ∧
    toOpenApiPath ("/users/:id?includeDeleted".data) =
      toOpenApiPath (("/users/:id?includeDeleted".data).takeWhile (fun c => c ≠ '?')) :=
  ⟨by decide, claim3_query_stripping _ (by decide)⟩

/-- C4: on inputs without literal `{` or `}`, the conversion is idempotent
(its output contains no `?` and every remaining `:` is inert). -/
theorem claim4_idempotent (p : List Char) (_h : ∀ c ∈ p, c ≠ '{' ∧ c ≠ '}') :
    toOpenApiPath (toOpenApiPath p) = toOpenApiPath p := by
  rw [toOpenApiPath_eq_strip p, toOpenApiPath_eq_strip]
  have hnq : ∀ c ∈ replaceParams (stripQuery p), c ≠ '?' := by
    intro c hcm hceq
    subst hceq
    rcases mem_replaceParams (stripQuery p).length _ le_rfl _ hcm with h' | h' | h'
    · exact stripQuery_no_query p _ h' rfl
    · simp at h'
    · simp at h'
  rw [stripQuery_eq_self hnq]
  exact replaceParams_id_of_inert (colonsInert_replaceParams (stripQuery p).length _ le_rfl)

theorem claim4_witness :
    (∀ c ∈ "/users/:id".data, c ≠ '{' ∧ c ≠ '}') ∧
    toOpenApiPath (toOpenApiPath ("/users/:id".data)) =
      toOpenApiPath ("/users/:id".data) :=
  ⟨by decide, claim4_idempotent _ (by decide)⟩

/-- C5: `createSpec` forwards a normalized form: the lowercased verb (via
`toOpenApiMethod`), the pattern converted by `toOpenApiPath`, and a request
whose `query` field receives the `searchParams` schema. -/
theorem claim5_normalization {α β : Type} (route : RouteObj)
    (config : RouteConfigIn α β) :
    (createSpec route config).method = toOpenApiMethod route.method ∧
    (route.method ≠ "ANY" → (createSpec route config).method = toLowerStr route.method) ∧
    (createSpec route config).path = toOpenApiPathStr route.pattern ∧
    (∀ r, config.request = some r →
      ∃ r', (createSpec route config).request = some r' ∧ r'.query = r.searchParams) := by
  refine ⟨rfl, ?_, rfl, ?_⟩
  · intro hm
    simp [createSpec, toOpenApiMethod, hm]
  · intro r hr
    exact ⟨⟨r.params, r.headers, r.cookies, r.body, r.searchParams, r.searchParams⟩,
      by simp [createSpec, hr], rfl⟩

theorem claim5_witness :
    (("GET" : String) ≠ "ANY") ∧
    (createSpec ⟨"GET", "/users/:id"⟩
      (⟨some ⟨none, none, none, none, some 1⟩, 0⟩ : RouteConfigIn Nat Nat)).method =
      toLowerStr "GET" :=
  ⟨by decide, (claim5_normalization _ _).2.1 (by decide)⟩

/-- C6: totality — the `split("?")[0]` indexing is always defined (so the
function can never fail) and the converter returns a string for every
input, including the empty string, parameter-free strings and an
unterminated trailing parameter token. -/
theorem claim6_totality :
    (∀ p : List Char, pathWithoutQuery p = some (stripQuery p) ∧
      toOpenApiPath p = replaceParams (stripQuery p)) ∧
    toOpenApiPathStr "" = "" ∧ toOpenApiPathStr "/users" = "/users" ∧
    toOpenApiPathStr ":abc" = "{abc}" := by
  refine ⟨?_, by decide, by decide, by decide⟩
  intro p
  constructor
  · show (jsSplit '?' p).head? = some (stripQuery p)
    rw [jsSplit_head?]
    rfl
  · exact toOpenApiPath_eq_strip p

/-- C7: `toOpenApiMethod` lowercases the verb, maps the wildcard `ANY` to
`get`, and applies no other normalization. -/
theorem claim7_method_conversion :
    toOpenApiMethod "GET" = "get" ∧ toOpenApiMethod "ANY" = "get" ∧
    toOpenApiMethod "PATCH" = "patch" ∧
    ∀ m : String, m ≠ "ANY" → toOpenApiMethod m = toLowerStr m := by
  refine ⟨by decide, by decide, by decide, ?_⟩
  intro m hm
  simp [toOpenApiMethod, hm]

theorem claim7_witness :
    (("POST" : String) ≠ "ANY") ∧ toOpenApiMethod "POST" = toLowerStr "POST" :=
  ⟨by decide, claim7_method_conversion.2.2.2 "POST" (by decide)⟩

/-- C8: on patterns with no `:` and no `?`, conversion is the identity. -/
theorem claim8_identity (p : List Char) (h1 : ':' ∉ p) (h2 : '?' ∉ p) :
    toOpenApiPath p = p := by
  rw [toOpenApiPath_eq_strip,
    stripQuery_eq_self (fun c hc hceq => h2 (hceq ▸ hc))]
  exact replaceParams_id_nocolon (fun c hc hceq => h1 (hceq ▸ hc))

theorem claim8_witness :
    (':' ∉ "/users".data) ∧ toOpenApiPath ("/users".data) = "/users".data :=
  ⟨by decide, claim8_identity _ (by decide) (by decide)⟩

/-- C9: a `:` immediately followed by a non-word character or end-of-string
is left unchanged by the runtime converter (no empty braces are emitted);
in particular `/a/:/b` and `/a/:` convert to themselves. -/
theorem claim9_bare_colon :
    (∀ u v : List Char, v.head?.all (fun c => !isWordChar c) = true →
      (∀ c ∈ u ++ ':' :: v, c ≠ '?') →
      toOpenApiPath (u ++ ':' :: v) = replaceParams u ++ ':' :: replaceParams v) ∧
    toOpenApiPathStr "/a/:/b" = "/a/:/b" ∧ toOpenApiPathStr "/a/:" = "/a/:" := by
  refine ⟨?_, by decide, by decide⟩
  intro u v hv hq
  have hv' : headNotWord v := by
    intro c hc
    simpa using true_of_option_all hv c hc
  have hcn : headNotWord (':' :: v) := by
    intro c hc
    simp only [List.head?_cons, Option.some.injEq] at hc
    subst hc
    decide
  rw [toOpenApiPath_eq_strip, stripQuery_eq_self hq,
    replaceParams_split hcn u.length u le_rfl, replaceParams_colon_nomatch hv']

theorem claim9_witness :
    toOpenApiPath ("/a".data ++ ':' :: "/b".data) =
      replaceParams ("/a".data) ++ ':' :: replaceParams ("/b".data) :=
  claim9_bare_colon.1 _ _ (by decide) (by decide)

/-- C10: the forwarded request keeps every original field — `searchParams`
included, spread-copied — and gains `query` equal to `searchParams`; an
absent `searchParams` yields `query = none`, and an absent request is
forwarded as `none`. -/
theorem claim10_request_fields {α β : Type} (route : RouteObj)
    (config : RouteConfigIn α β) :
    (∀ r, config.request = some r →
      ∃ r', (createSpec route config).request = some r' ∧
        r'.searchParams = r.searchParams ∧ r'.query = r.searchParams ∧
        r'.params = r.params ∧ r'.headers = r.headers ∧
        r'.cookies = r.cookies ∧ r'.body = r.body ∧
        (r.searchParams = none → r'.query = none)) ∧
    (config.request = none → (createSpec route config).request = none) := by
  constructor
  · intro r hr
    exact ⟨⟨r.params, r.headers, r.cookies, r.body, r.searchParams, r.searchParams⟩,
      by simp [createSpec, hr], rfl, rfl, rfl, rfl, rfl, rfl, fun h => h⟩
  · intro hr
    simp [createSpec, hr]

theorem claim10_witness :
    (createSpec (⟨"GET", "/x"⟩ : RouteObj)
      (⟨none, 0⟩ : RouteConfigIn Nat Nat)).request = none :=
  (claim10_request_fields _ _).2 rfl

end OpenapiRouter
